import Mathlib

set_option maxRecDepth 8000

/-!
Shallow embedding of `src/miller_rabin.c`: overflow-safe modular arithmetic
on 64-bit unsigned integers (`mod_add`, `mod_sub`, `mod_mul`, `mod_pow`) and
the deterministic Miller-Rabin primality test (`miller_rabin`).

Machine integers are modelled as `Nat` together with explicit wrapping
operations modulo `2 ^ 64` (`add64`, `sub64`) at every place where the C
code performs `uint64_t` addition or subtraction, so that the absence of
wrap-around in the source is a proved fact, not an assumption.  The C
`while` loops are rendered as structurally recursive functions on an
explicit fuel argument; fuel equal to the loop's controlling variable is
always sufficient because that variable at least halves on each iteration.
-/

/-- The size of the `uint64_t` value domain. -/
def U64 : Nat := 2 ^ 64

/-- Wrapping 64-bit addition: `x + y` as computed on `uint64_t`. -/
def add64 (x y : Nat) : Nat := (x + y) % U64

/-- Wrapping 64-bit subtraction: `x - y` as computed on `uint64_t`
(for `y ≤ U64`, adding `U64 - y` and reducing is two's-complement wrap). -/
def sub64 (x y : Nat) : Nat := (x + (U64 - y)) % U64

/-- Embeds `mod_add` (miller_rabin.c lines 15-26): reduce both inputs mod
`m`, then branch on `a >= m - b` to avoid the overflow of computing `a + b`
directly. -/
def mod_add (a b m : Nat) : Nat :=
  let a := a % m
  let b := b % m
  if sub64 m b ≤ a then sub64 a (sub64 m b) else add64 a b

/-- Embeds `mod_sub` (miller_rabin.c lines 32-43): reduce both inputs mod
`m`; if `a < b` return `m - b + a` to avoid a negative intermediate. -/
def mod_sub (a b m : Nat) : Nat :=
  let a := a % m
  let b := b % m
  if a < b then add64 (sub64 m b) a else sub64 a b

/-- The `while (b > 0)` loop of `mod_mul` (miller_rabin.c lines 67-72):
double-and-add.  `fuel` bounds the number of iterations; `b` halves each
round so `fuel = b` suffices. -/
def mulLoop : Nat → Nat → Nat → Nat → Nat → Nat
  | 0, _, _, _, r => r
  | fuel + 1, a, b, m, r =>
    if 0 < b then
      mulLoop fuel (mod_add a a m) (b / 2) m
        (if b % 2 = 1 then mod_add r a m else r)
    else r

/-- Embeds `mod_mul` (miller_rabin.c lines 57-75): reduce `a` and `b` mod
`m`, then run the double-and-add loop with accumulator `r = 0`. -/
def mod_mul (a b m : Nat) : Nat :=
  mulLoop (b % m) (a % m) (b % m) m 0

/-- The `while (b > 0)` loop of `mod_pow` (miller_rabin.c lines 98-103):
square-and-multiply.  As in `mulLoop`, `fuel = b` iterations suffice. -/
def powLoop : Nat → Nat → Nat → Nat → Nat → Nat
  | 0, _, _, _, r => r
  | fuel + 1, a, b, m, r =>
    if 0 < b then
      powLoop fuel (mod_mul a a m) (b / 2) m
        (if b % 2 = 1 then mod_mul r a m else r)
    else r

/-- Embeds `mod_pow` (miller_rabin.c lines 89-106): reduce `a` mod `m` only
when `a >= m` (the exponent `b` is never reduced), then run the
square-and-multiply loop with accumulator `r = 1`. -/
def mod_pow (a b m : Nat) : Nat :=
  let a := if m ≤ a then a % m else a
  powLoop b a b m 1

/-- Modelled from the spec: the result type of `miller_rabin`.  The header
`miller_rabin.h` defining the `PRIME` and `COMPOSITE` constants is not in
`src/`; the spec describes the result as a two-valued enumeration
`{PRIME, COMPOSITE}`. -/
inductive MRResult where
  | PRIME : MRResult
  | COMPOSITE : MRResult
deriving DecidableEq, Repr

/-- The witness-base table `a` (miller_rabin.c line 117).  The initializer
lists exactly these 12 values; its declared length `BASELEN` comes from the
missing header `miller_rabin.h`, and is modelled from the spec as 12. -/
def aBases : List Nat := [2, 3, 5, 7, 11, 13, 17, 19, 23, 29, 31, 37]

/-- The decomposition loop of `miller_rabin` (miller_rabin.c lines 138-143):
starting from `temp = n - 1` and `k = 1`, while `temp >= 1`, break when the
low bit of `temp` is set, else increment `k` and shift `temp` right.  `fuel`
bounds the iterations; `temp` halves each round so `fuel = temp` suffices.
Returns the pair `(k, q)` with `q` the final `temp`. -/
def decomposeLoop : Nat → Nat → Nat → Nat × Nat
  | 0, temp, k => (k, temp)
  | fuel + 1, temp, k =>
    if 1 ≤ temp then
      if temp % 2 = 1 then (k, temp)
      else decomposeLoop fuel (temp / 2) (k + 1)
    else (k, temp)

/-- The `(k, q)` pair computed by `miller_rabin` for candidate `n`
(miller_rabin.c lines 130-144), with `n - 1` formed by `uint64_t`
subtraction. -/
def mr_decomp (n : Nat) : Nat × Nat :=
  decomposeLoop (sub64 n 1) (sub64 n 1) 1

/-- The body of `miller_rabin`'s outer loop for one witness base `ai`
(miller_rabin.c lines 152-156): the base passes when
`mod_pow(ai, q, n) == 1`, or when for some `j` with `0 <= j < k - 1` the
squaring check `mod_pow(mod_pow(ai, q, n), mod_pow(2, j, n), n) == n - 1`
holds. -/
def mr_base_passes (n k q ai : Nat) : Bool :=
  (mod_pow ai q n == 1) ||
    (List.range (k - 1)).any fun j =>
      mod_pow (mod_pow ai q n) (mod_pow 2 j n) n == sub64 n 1

/-- Embeds `miller_rabin` (miller_rabin.c lines 125-159): decompose
`n - 1`, then scan the witness bases in order; the C function returns
`PRIME` from inside the loop at the first base that passes, and returns
`COMPOSITE` after the loop when no base passes. -/
def miller_rabin (n : Nat) : MRResult :=
  let kq := mr_decomp n
  if aBases.any (fun ai => mr_base_passes n kq.1 kq.2 ai) then
    MRResult.PRIME
  else
    MRResult.COMPOSITE

/-! ### Arithmetic facts about the embedded primitives -/

lemma sub64_eq_of_le (x y : Nat) (hle : y ≤ x) (hx : x < U64) :
    sub64 x y = x - y := by
  unfold sub64
  have h1 : x + (U64 - y) = U64 + (x - y) := by omega
  rw [h1, Nat.add_mod_left]
  exact Nat.mod_eq_of_lt (by omega)

lemma add64_eq_of_lt (x y : Nat) (h : x + y < U64) : add64 x y = x + y :=
  Nat.mod_eq_of_lt h

lemma mod_add_eq (a b m : Nat) (hm : 0 < m) (hmU : m < U64) :
    mod_add a b m = (a + b) % m := by
  have ha : a % m < m := Nat.mod_lt _ hm
  have hb : b % m < m := Nat.mod_lt _ hm
  have hmb : sub64 m (b % m) = m - b % m :=
    sub64_eq_of_le m (b % m) (le_of_lt hb) hmU
  show (if sub64 m (b % m) ≤ a % m then sub64 (a % m) (sub64 m (b % m))
      else add64 (a % m) (b % m)) = (a + b) % m
  rw [hmb, Nat.add_mod]
  by_cases h : m - b % m ≤ a % m
  · rw [if_pos h, sub64_eq_of_le _ _ h (by omega)]
    rw [Nat.mod_eq_sub_mod (by omega : m ≤ a % m + b % m)]
    have hlt : a % m + b % m - m < m := by omega
    rw [Nat.mod_eq_of_lt hlt]
    omega
  · rw [if_neg h, add64_eq_of_lt _ _ (by omega)]
    have hlt : a % m + b % m < m := by omega
    exact (Nat.mod_eq_of_lt hlt).symm

lemma mod_sub_lt (a b m : Nat) (hm : 0 < m) (hmU : m < U64) :
    mod_sub a b m < m := by
  have ha : a % m < m := Nat.mod_lt _ hm
  have hb : b % m < m := Nat.mod_lt _ hm
  have hmb : sub64 m (b % m) = m - b % m :=
    sub64_eq_of_le m (b % m) (le_of_lt hb) hmU
  show (if a % m < b % m then add64 (sub64 m (b % m)) (a % m)
      else sub64 (a % m) (b % m)) < m
  rw [hmb]
  by_cases h : a % m < b % m
  · rw [if_pos h, add64_eq_of_lt _ _ (by omega)]
    omega
  · rw [if_neg h, sub64_eq_of_le _ _ (by omega) (by omega)]
    omega

lemma mulLoop_eq (m : Nat) (hm : 0 < m) (hmU : m < U64) :
    ∀ fuel b a r, b ≤ fuel → r < m →
      mulLoop fuel a b m r = (r + a * b) % m := by
  intro fuel
  induction fuel with
  | zero =>
    intro b a r hb hr
    have hb0 : b = 0 := by omega
    subst hb0
    simp only [mulLoop, Nat.mul_zero, Nat.add_zero]
    exact (Nat.mod_eq_of_lt hr).symm
  | succ fuel ih =>
    intro b a r hb hr
    by_cases h0 : 0 < b
    · simp only [mulLoop]
      rw [if_pos h0]
      have hr' : (if b % 2 = 1 then mod_add r a m else r) < m := by
        split
        · rw [mod_add_eq _ _ _ hm hmU]; exact Nat.mod_lt _ hm
        · exact hr
      rw [ih (b / 2) (mod_add a a m) _ (by omega) hr']
      rw [mod_add_eq a a m hm hmU]
      rcases Nat.mod_two_eq_zero_or_one b with h2 | h2
      · rw [if_neg (by omega)]
        have hb2 : 2 * (b / 2) = b := by omega
        have step : r + (a + a) % m * (b / 2) ≡ r + (a + a) * (b / 2) [MOD m] :=
          (Nat.ModEq.refl r).add ((Nat.mod_modEq _ _).mul_right _)
        refine step.trans ?_
        have heq : (a + a) * (b / 2) = a * b := by
          calc (a + a) * (b / 2) = a * (2 * (b / 2)) := by ring
            _ = a * b := by rw [hb2]
        rw [heq]
      · rw [if_pos h2]
        rw [mod_add_eq r a m hm hmU]
        have hb2 : 2 * (b / 2) + 1 = b := by omega
        have step : (r + a) % m + (a + a) % m * (b / 2) ≡
            (r + a) + (a + a) * (b / 2) [MOD m] :=
          (Nat.mod_modEq _ _).add ((Nat.mod_modEq _ _).mul_right _)
        refine step.trans ?_
        have heq : r + a + (a + a) * (b / 2) = r + a * b := by
          calc r + a + (a + a) * (b / 2) = r + a * (2 * (b / 2) + 1) := by ring
            _ = r + a * b := by rw [hb2]
        rw [heq]
    · have hb0 : b = 0 := by omega
      subst hb0
      simp only [mulLoop, if_neg h0, Nat.mul_zero, Nat.add_zero]
      exact (Nat.mod_eq_of_lt hr).symm

lemma mod_mul_eq (a b m : Nat) (hm : 0 < m) (hmU : m < U64) :
    mod_mul a b m = a * b % m := by
  unfold mod_mul
  rw [mulLoop_eq m hm hmU (b % m) (b % m) (a % m) 0 (le_refl _) hm]
  rw [Nat.zero_add, ← Nat.mul_mod]

lemma powLoop_zero_exp : ∀ fuel a m r, powLoop fuel a 0 m r = r := by
  intro fuel a m r
  cases fuel <;> simp [powLoop]

lemma powLoop_eq (m : Nat) (hm : 0 < m) (hmU : m < U64) :
    ∀ fuel b a r, b ≤ fuel → 1 ≤ b →
      powLoop fuel a b m r = r * a ^ b % m := by
  intro fuel
  induction fuel with
  | zero => intro b a r hb h1; omega
  | succ fuel ih =>
    intro b a r hb h1
    simp only [powLoop]
    rw [if_pos (by omega)]
    have hsplit : b = 2 * (b / 2) + b % 2 := by omega
    by_cases hb2 : b / 2 = 0
    · have hb1 : b = 1 := by omega
      subst hb1
      norm_num
      rw [powLoop_zero_exp, mod_mul_eq _ _ _ hm hmU]
    · rw [ih (b / 2) (mod_mul a a m) _ (by omega) (by omega)]
      rw [mod_mul_eq a a m hm hmU]
      rcases Nat.mod_two_eq_zero_or_one b with h2 | h2
      · rw [if_neg (by omega)]
        have step : r * (a * a % m) ^ (b / 2) ≡
            r * (a * a) ^ (b / 2) [MOD m] :=
          ((Nat.mod_modEq (a * a) m).pow _).mul_left r
        refine step.trans ?_
        have : r * (a * a) ^ (b / 2) = r * a ^ b := by
          conv_rhs => rw [hsplit, h2]
          rw [Nat.add_zero, pow_mul, pow_two]
        rw [this]
      · rw [if_pos h2]
        rw [mod_mul_eq r a m hm hmU]
        have step : r * a % m * (a * a % m) ^ (b / 2) ≡
            r * a * (a * a) ^ (b / 2) [MOD m] :=
          (Nat.mod_modEq _ _).mul ((Nat.mod_modEq (a * a) m).pow _)
        refine step.trans ?_
        have : r * a * (a * a) ^ (b / 2) = r * a ^ b := by
          conv_rhs => rw [hsplit, h2]
          rw [pow_add, pow_mul, pow_two, pow_one]; ring
        rw [this]

lemma mod_pow_eq (a b m : Nat) (hm : 0 < m) (hmU : m < U64)
    (h : 1 ≤ b ∨ 1 < m) : mod_pow a b m = a ^ b % m := by
  unfold mod_pow
  have ha : (if m ≤ a then a % m else a) = a % m := by
    split
    · rfl
    · exact (Nat.mod_eq_of_lt (by omega)).symm
  rw [ha]
  rcases Nat.eq_zero_or_pos b with hb | hb
  · subst hb
    have hm1 : 1 < m := by rcases h with h | h; omega; exact h
    rw [powLoop_zero_exp, pow_zero, Nat.mod_eq_of_lt hm1]
  · rw [powLoop_eq m hm hmU b b (a % m) 1 (le_refl b) hb]
    rw [one_mul, ← Nat.pow_mod]

lemma mod_pow_exp_zero (a m : Nat) : mod_pow a 0 m = 1 := by
  unfold mod_pow
  exact powLoop_zero_exp 0 _ m 1

/-! ### Facts about the decomposition loop of miller_rabin -/

lemma decomposeLoop_spec : ∀ fuel temp k, temp ≤ fuel → 1 ≤ temp →
    k ≤ (decomposeLoop fuel temp k).1 ∧
    (decomposeLoop fuel temp k).2 % 2 = 1 ∧
    2 ^ ((decomposeLoop fuel temp k).1 - k) * (decomposeLoop fuel temp k).2
      = temp := by
  intro fuel
  induction fuel with
  | zero => intro temp k h h1; omega
  | succ fuel ih =>
    intro temp k h h1
    simp only [decomposeLoop]
    rw [if_pos h1]
    rcases Nat.mod_two_eq_zero_or_one temp with h2 | h2
    · rw [if_neg (by omega)]
      obtain ⟨hk, hodd, heq⟩ := ih (temp / 2) (k + 1) (by omega) (by omega)
      refine ⟨by omega, hodd, ?_⟩
      have hKk : (decomposeLoop fuel (temp / 2) (k + 1)).1 - k =
          ((decomposeLoop fuel (temp / 2) (k + 1)).1 - (k + 1)) + 1 := by
        omega
      rw [hKk, pow_succ]
      calc 2 ^ ((decomposeLoop fuel (temp / 2) (k + 1)).1 - (k + 1)) * 2 *
            (decomposeLoop fuel (temp / 2) (k + 1)).2
          = 2 * (2 ^ ((decomposeLoop fuel (temp / 2) (k + 1)).1 - (k + 1)) *
            (decomposeLoop fuel (temp / 2) (k + 1)).2) := by ring
        _ = 2 * (temp / 2) := by rw [heq]
        _ = temp := by omega
    · rw [if_pos h2]
      exact ⟨le_refl _, h2, by simp⟩

lemma mr_decomp_spec (n : Nat) (h2 : n % 2 = 1) (h3 : 3 < n) (hU : n < U64) :
    2 ≤ (mr_decomp n).1 ∧ 1 ≤ (mr_decomp n).2 ∧ (mr_decomp n).2 % 2 = 1 ∧
      2 ^ ((mr_decomp n).1 - 1) * (mr_decomp n).2 = n - 1 := by
  have hs : sub64 n 1 = n - 1 := sub64_eq_of_le n 1 (by omega) hU
  unfold mr_decomp
  rw [hs]
  obtain ⟨hk, hodd, heq⟩ :=
    decomposeLoop_spec (n - 1) (n - 1) 1 (le_refl _) (by omega)
  refine ⟨?_, by omega, hodd, heq⟩
  by_contra hlt
  have hk1 : (decomposeLoop (n - 1) (n - 1) 1).1 = 1 := by omega
  rw [hk1] at heq
  simp at heq
  omega

/-! ### Claim theorems -/

/-- C1: the claim says miller_rabin(n) returns PRIME exactly when odd n > 3
is prime.  The code violates this: at the composite input n = 9 it returns
PRIME, because the base 17 ≡ -1 (mod 9) satisfies the first squaring check
and the function returns PRIME at any single passing base instead of
requiring every base to pass. -/
theorem millerRabin_misclassifies_composite_nine :
    miller_rabin 9 = MRResult.PRIME ∧ ¬ Nat.Prime 9 :=
  ⟨by decide, by norm_num⟩

/-- C2: the claim says miller_rabin(9) = COMPOSITE; evaluating the embedded
code at 9 yields PRIME. -/
theorem millerRabin_nine_evaluates_PRIME :
    miller_rabin 9 = MRResult.PRIME := by decide

/-- C4 counterexample: at n = 5 the decomposition loop computes k = 3 and
q = 1, but n - 1 = 4 ≠ 2^3 * 1 = 8, refuting n - 1 = 2^k * q as stated. -/
theorem decomp_counterexample_at_five :
    5 % 2 = 1 ∧ 3 < 5 ∧ (mr_decomp 5).1 = 3 ∧ (mr_decomp 5).2 = 1 ∧
      5 - 1 ≠ 2 ^ (mr_decomp 5).1 * (mr_decomp 5).2 := by decide

/-- C4 amended: for every odd n > 3 (as a 64-bit value), the computed pair
(k, q) satisfies n - 1 = 2^(k-1) * q with q odd, k ≥ 2 and q ≥ 1: the loop
counts one more than the number of halvings, as the spec's own design note
on the k-counting convention records. -/
theorem decomp_two_pow_pred_k_mul_q (n : Nat) (h2 : n % 2 = 1) (h3 : 3 < n)
    (hU : n < U64) :
    n - 1 = 2 ^ ((mr_decomp n).1 - 1) * (mr_decomp n).2 ∧
      (mr_decomp n).2 % 2 = 1 ∧ 2 ≤ (mr_decomp n).1 ∧ 1 ≤ (mr_decomp n).2 := by
  obtain ⟨hk, hq, hodd, heq⟩ := mr_decomp_spec n h2 h3 hU
  exact ⟨heq.symm, hodd, hk, hq⟩

/-- C4 witness: the amended decomposition relation instantiated at n = 5,
where k = 3, q = 1 and 4 = 2^2 * 1. -/
theorem decomp_two_pow_pred_k_mul_q_witness :
    5 - 1 = 2 ^ ((mr_decomp 5).1 - 1) * (mr_decomp 5).2 ∧
      (mr_decomp 5).2 % 2 = 1 ∧ 2 ≤ (mr_decomp 5).1 ∧ 1 ≤ (mr_decomp 5).2 :=
  decomp_two_pow_pred_k_mul_q 5 (by decide) (by decide) (by decide)

/-- C5 counterexample: with exponent b = 0 and modulus m = 1 the loop never
runs, so mod_pow returns its initial accumulator 1, while the
arbitrary-precision value (5^0) % 1 is 0. -/
theorem modPow_counterexample_exp_zero_mod_one :
    (0 : Nat) < 1 ∧ mod_pow 5 0 1 = 1 ∧ 5 ^ 0 % 1 = 0 ∧
      mod_pow 5 0 1 ≠ 5 ^ 0 % 1 := by decide

/-- C5 amended: for all 64-bit a, b and modulus 0 < m < 2^64, except in the
single case b = 0 and m = 1, mod_pow(a, b, m) equals the arbitrary-precision
(a^b) % m, the exponent being used in full. -/
theorem modPow_eq_pow_mod (a b m : Nat) (hm : 0 < m) (hmU : m < U64)
    (h : ¬(b = 0 ∧ m = 1)) : mod_pow a b m = a ^ b % m := by
  refine mod_pow_eq a b m hm hmU ?_
  by_cases hb : 1 ≤ b
  · exact Or.inl hb
  · right; omega

/-- C5 witness: mod_pow(2, 10, 1000) equals 2^10 % 1000 = 24. -/
theorem modPow_eq_pow_mod_witness : mod_pow 2 10 1000 = 2 ^ 10 % 1000 :=
  modPow_eq_pow_mod 2 10 1000 (by decide) (by decide) (by decide)

/-- C6 counterexample: mod_pow(2, 0, 1) returns 1, not 1 % 1 = 0, so the
clause returns 0 when m == 1 of the claim fails. -/
theorem modPow_zero_counterexample_mod_one :
    (0 : Nat) < 1 ∧ mod_pow 2 0 1 = 1 ∧ 1 % 1 = 0 ∧
      mod_pow 2 0 1 ≠ 1 % 1 := by decide

/-- C6 amended: for all a and all m > 0, mod_pow(a, 0, m) returns 1
unconditionally (also when m = 1): the loop never executes and the
accumulator keeps its initial value 1. -/
theorem modPow_exp_zero_eq_one (a m : Nat) (_hm : 0 < m) :
    mod_pow a 0 m = 1 :=
  mod_pow_exp_zero a m

/-- C6 witness: mod_pow(7, 0, 5) = 1. -/
theorem modPow_exp_zero_eq_one_witness : mod_pow 7 0 5 = 1 :=
  modPow_exp_zero_eq_one 7 5 (by decide)

/-- C7: for all 64-bit a, b and modulus 0 < m < 2^64, mod_mul(a, b, m)
equals the arbitrary-precision (a * b) % m; every intermediate value lives
below m < 2^64, so no step wraps modulo 2^64. -/
theorem modMul_eq_mul_mod (a b m : Nat) (hm : 0 < m) (hmU : m < U64) :
    mod_mul a b m = a * b % m :=
  mod_mul_eq a b m hm hmU

/-- C7 witness: a product far above 2^64 (2^63 * 3) is still reduced
correctly modulo 2^64 - 59. -/
theorem modMul_eq_mul_mod_witness :
    mod_mul (2 ^ 63) 3 (2 ^ 64 - 59) = 2 ^ 63 * 3 % (2 ^ 64 - 59) :=
  modMul_eq_mul_mod (2 ^ 63) 3 (2 ^ 64 - 59) (by decide) (by decide)

/-- C8: for all 64-bit a, b and modulus 0 < m < 2^64, mod_add(a, b, m)
equals the arbitrary-precision (a % m + b % m) % m; there is no
precondition a, b < m and the guarded rearrangement never wraps. -/
theorem modAdd_eq_add_mod (a b m : Nat) (hm : 0 < m) (hmU : m < U64) :
    mod_add a b m = (a % m + b % m) % m := by
  rw [mod_add_eq a b m hm hmU, Nat.add_mod]

/-- C8 witness: inputs far above the modulus are handled, here a = 100 and
b = 200 with m = 7. -/
theorem modAdd_eq_add_mod_witness :
    mod_add 100 200 7 = (100 % 7 + 200 % 7) % 7 :=
  modAdd_eq_add_mod 100 200 7 (by decide) (by decide)

/-- C9: for all 64-bit a, b and modulus 0 < m < 2^64, the results of
mod_add, mod_sub and mod_mul are canonical residues, strictly below m. -/
theorem modOps_lt_modulus (a b m : Nat) (hm : 0 < m) (hmU : m < U64) :
    mod_add a b m < m ∧ mod_sub a b m < m ∧ mod_mul a b m < m := by
  refine ⟨?_, mod_sub_lt a b m hm hmU, ?_⟩
  · rw [mod_add_eq a b m hm hmU]
    exact Nat.mod_lt _ hm
  · rw [mod_mul_eq a b m hm hmU]
    exact Nat.mod_lt _ hm

/-- C9 witness: the three residue bounds at a = 123, b = 456, m = 10. -/
theorem modOps_lt_modulus_witness :
    mod_add 123 456 10 < 10 ∧ mod_sub 123 456 10 < 10 ∧
      mod_mul 123 456 10 < 10 :=
  modOps_lt_modulus 123 456 10 (by decide) (by decide)

/-- C3: for every odd 64-bit n > 3, miller_rabin(n) returns PRIME exactly
when some base in the ordered 12-element witness table satisfies a pass
condition — mod_pow(a_i, q, n) = 1, or some squaring check with
j in 0..k-2 equals n - 1 — and returns COMPOSITE exactly when no base
passes; the scan returns PRIME at the first passing base. -/
theorem millerRabin_prime_iff_some_base_passes (n : Nat) (h2 : n % 2 = 1)
    (h3 : 3 < n) (hU : n < U64) :
    miller_rabin n = MRResult.PRIME ↔
      ∃ i, ∃ hi : i < aBases.length,
        (mod_pow (aBases.get ⟨i, hi⟩) (mr_decomp n).2 n = 1 ∨
          ∃ j, j < (mr_decomp n).1 - 1 ∧
            mod_pow (mod_pow (aBases.get ⟨i, hi⟩) (mr_decomp n).2 n)
              (mod_pow 2 j n) n = n - 1) := by
  have hs : sub64 n 1 = n - 1 := sub64_eq_of_le n 1 (by omega) hU
  have hpass : ∀ ai,
      mr_base_passes n (mr_decomp n).1 (mr_decomp n).2 ai = true ↔
      (mod_pow ai (mr_decomp n).2 n = 1 ∨
        ∃ j, j < (mr_decomp n).1 - 1 ∧
          mod_pow (mod_pow ai (mr_decomp n).2 n) (mod_pow 2 j n) n
            = n - 1) := by
    intro ai
    unfold mr_base_passes
    rw [hs]
    simp
  have hiff : miller_rabin n = MRResult.PRIME ↔
      (aBases.any fun ai =>
        mr_base_passes n (mr_decomp n).1 (mr_decomp n).2 ai) = true := by
    unfold miller_rabin
    by_cases hany : (aBases.any fun ai =>
        mr_base_passes n (mr_decomp n).1 (mr_decomp n).2 ai) = true
    · simp [hany]
    · simp [hany]
  rw [hiff, List.any_eq_true]
  constructor
  · rintro ⟨ai, hmem, hpa⟩
    rcases List.mem_iff_get.mp hmem with ⟨⟨i, hi⟩, rfl⟩
    exact ⟨i, hi, (hpass _).mp hpa⟩
  · rintro ⟨i, hi, hcond⟩
    exact ⟨aBases.get ⟨i, hi⟩, List.get_mem _ _ _, (hpass _).mpr hcond⟩

/-- C3 witness: the equivalence instantiated at the prime n = 5. -/
theorem millerRabin_prime_iff_some_base_passes_witness :
    miller_rabin 5 = MRResult.PRIME ↔
      ∃ i, ∃ hi : i < aBases.length,
        (mod_pow (aBases.get ⟨i, hi⟩) (mr_decomp 5).2 5 = 1 ∨
          ∃ j, j < (mr_decomp 5).1 - 1 ∧
            mod_pow (mod_pow (aBases.get ⟨i, hi⟩) (mr_decomp 5).2 5)
              (mod_pow 2 j 5) 5 = 5 - 1) :=
  millerRabin_prime_iff_some_base_passes 5 (by decide) (by decide) (by decide)

/-- C10: for every odd 64-bit n > 3, every index j of the inner witness
loop (j < k - 1 for the computed k) satisfies 2^j < n, so the exponent
mod_pow(2, j, n) is exactly 2^j and the inner check compares
a_i^(q * 2^j) mod n against n - 1. -/
theorem innerLoop_exponent_exact (n j : Nat) (h2 : n % 2 = 1) (h3 : 3 < n)
    (hU : n < U64) (hj : j < (mr_decomp n).1 - 1) :
    2 ^ j < n ∧ mod_pow 2 j n = 2 ^ j ∧
      ∀ ai, mod_pow (mod_pow ai (mr_decomp n).2 n) (mod_pow 2 j n) n
        = ai ^ ((mr_decomp n).2 * 2 ^ j) % n := by
  obtain ⟨hk, hq, hodd, heq⟩ := mr_decomp_spec n h2 h3 hU
  have hn1 : 1 < n := lt_trans (by norm_num) h3
  have hn0 : 0 < n := lt_trans (by norm_num) h3
  have hjlt : 2 ^ j < n := by
    have hlt : 2 ^ j < 2 ^ ((mr_decomp n).1 - 1) :=
      Nat.pow_lt_pow_right (by norm_num) hj
    have hle : 2 ^ ((mr_decomp n).1 - 1) ≤ n - 1 := by
      calc 2 ^ ((mr_decomp n).1 - 1)
          = 2 ^ ((mr_decomp n).1 - 1) * 1 := by ring
        _ ≤ 2 ^ ((mr_decomp n).1 - 1) * (mr_decomp n).2 :=
            Nat.mul_le_mul_left _ hq
        _ = n - 1 := heq
    exact lt_of_lt_of_le (lt_of_lt_of_le hlt hle) (Nat.sub_le n 1)
  have hp2 : mod_pow 2 j n = 2 ^ j := by
    rw [mod_pow_eq 2 j n hn0 hU (Or.inr hn1)]
    exact Nat.mod_eq_of_lt hjlt
  refine ⟨hjlt, hp2, ?_⟩
  intro ai
  rw [hp2]
  rw [mod_pow_eq ai (mr_decomp n).2 n hn0 hU (Or.inl hq)]
  rw [mod_pow_eq _ (2 ^ j) n hn0 hU
    (Or.inl (Nat.one_le_pow _ _ (by norm_num)))]
  rw [← Nat.pow_mod, ← pow_mul]

/-- C10 witness: at n = 13 the loop computes k = 3 and q = 3; at index
j = 1 the exponent is exactly 2 and the inner check compares
a_i^6 mod 13 against 12. -/
theorem innerLoop_exponent_exact_witness :
    2 ^ 1 < 13 ∧ mod_pow 2 1 13 = 2 ^ 1 ∧
      ∀ ai, mod_pow (mod_pow ai (mr_decomp 13).2 13) (mod_pow 2 1 13) 13
        = ai ^ ((mr_decomp 13).2 * 2 ^ 1) % 13 :=
  innerLoop_exponent_exact 13 1 (by decide) (by decide) (by decide)
    (by decide)

